import Mathlib

/-!
Verification of a browser-based simple code editor (`src/app/page.tsx`,
`src/types/FileEntry.ts`, and the file-tree component).

The embedding models JavaScript strings as lists of characters, the React
component state as an explicit `EditorState` record, and each event handler
as a pure state-transition function.  Host file-system effects (directory
picking, file read, file write) are modelled by explicit outcome parameters:
the handler receives what the host call would have produced.
-/

namespace SimpleCodeEditor

/-- A JavaScript string, modelled as its sequence of characters. -/
abbrev Str := List Char

/-- Plain lexicographic comparison of character lists under the character
order; building block for the model of the host locale comparator. -/
def lexCmp : Str → Str → Ordering
  | [], [] => .eq
  | [], _ :: _ => .lt
  | _ :: _, [] => .gt
  | a :: as, b :: bs =>
    if a < b then .lt
    else if b < a then .gt
    else lexCmp as bs

/-- Modelled from the spec: the host's `String.prototype.localeCompare`
(a "case-aware lexical comparator").  Primary key: characters folded to
lower case, lexicographically; tie-break: the raw strings in reversed
character order, so that a lower-case letter sorts before its upper-case
form as in the default locale.  Any total order works for the claims; this
one is case-aware in the spec's sense. -/
def localeCompare (a b : Str) : Int :=
  match lexCmp (a.map Char.toLower) (b.map Char.toLower) with
  | .lt => -1
  | .gt => 1
  | .eq =>
    match lexCmp b a with
    | .lt => -1
    | .gt => 1
    | .eq => 0

/-- `FileEntry` from `src/types/FileEntry.ts`.  The opaque host handle is
dropped (it carries no information the claims mention); a file's absent
`children` field is modelled as the empty list. -/
inductive FileEntry where
  | mk (name : Str) (isDirectory : Bool) (children : List FileEntry)

def FileEntry.name : FileEntry → Str
  | .mk n _ _ => n

def FileEntry.isDirectory : FileEntry → Bool
  | .mk _ d _ => d

def FileEntry.children : FileEntry → List FileEntry
  | .mk _ _ cs => cs

/-- The two-key comparator passed to `entries.sort` in `getAllFiles`:
directories first, then `localeCompare` on names. -/
def entryCmp (a b : FileEntry) : Int :=
  if a.isDirectory && !b.isDirectory then -1
  else if !a.isDirectory && b.isDirectory then 1
  else localeCompare a.name b.name

/-- Boolean "may precede" relation induced by `entryCmp`, used for the
(stable) sort model of JavaScript `Array.prototype.sort`. -/
def entryLeB (a b : FileEntry) : Bool :=
  decide (entryCmp a b ≤ 0)

/-- Raw view of a host directory: the enumeration order of
`dirHandle.entries()`, each entry a file or a directory with its own raw
children. -/
inductive RawEntry where
  | file (name : Str)
  | dir (name : Str) (children : List RawEntry)

/-- The entry-collection loop of `getAllFiles`: files are pushed as-is,
directories are recursed into (children built by the full `getAllFiles`,
i.e. collected and then sorted). -/
def collectEntries : List RawEntry → List FileEntry
  | [] => []
  | .file n :: rest => FileEntry.mk n false [] :: collectEntries rest
  | .dir n cs :: rest =>
    FileEntry.mk n true ((collectEntries cs).mergeSort entryLeB) :: collectEntries rest

/-- `getAllFiles` from `src/app/page.tsx`: collect every direct child
(recursing into directories) and sort the level with the two-key
comparator.  JavaScript `Array.prototype.sort` is stable; `mergeSort`
models it. -/
def getAllFiles (l : List RawEntry) : List FileEntry :=
  (collectEntries l).mergeSort entryLeB

mutual

/-- Every level of the entry's subtree is sorted under `entryLeB`. -/
def entrySortedB : FileEntry → Bool
  | .mk _ _ cs => listSortedB cs

/-- The list is pairwise ordered by `entryLeB` and every member's subtree
is sorted at every level. -/
def listSortedB : List FileEntry → Bool
  | [] => true
  | e :: es => entrySortedB e && es.all (fun b => entryLeB e b) && listSortedB es

end

/-- The component state relevant to the claims: the displayed tree, the
open-file session (`currentFile`, `fileContent` = original text,
`editedContent` = edited text) and the latest surfaced error message. -/
structure EditorState where
  fileTree : List FileEntry
  currentFile : Option Nat
  fileContent : Str
  editedContent : Str
  error : Option Str

/-- Model text of the error surfaced by a failed save
("ファイルの保存中にエラーが発生しました。"). -/
def saveErrorMsg : Str := "save error".data

/-- Model text of the error surfaced by a failed file read. -/
def readErrorMsg : Str := "read error".data

/-- Model text of the error thrown when directory enumeration fails. -/
def enumErrorMsg : Str := "enumeration error".data

/-- Model text of the error thrown when the File System Access API is
missing. -/
def unsupportedMsg : Str := "unsupported".data

/-- `hasChanges` from `src/app/page.tsx`:
`currentFile && fileContent !== editedContent`. -/
def hasChanges (s : EditorState) : Bool :=
  s.currentFile.isSome && s.fileContent != s.editedContent

/-- `handleSaveFile`.  Early-returns when no file is open.  Otherwise the
host write either succeeds (`writeOk`) — the full `editedContent` is
written and `fileContent` is set to it — or throws, in which case only the
error message is set.  The second component records the content written to
the file reference (`none` when no complete write happened). -/
def handleSaveFile (writeOk : Bool) (s : EditorState) : EditorState × Option Str :=
  match s.currentFile with
  | none => (s, none)
  | some _ =>
    if writeOk then
      ({ s with fileContent := s.editedContent, error := none }, some s.editedContent)
    else
      ({ s with error := some saveErrorMsg }, none)

/-- The session-state effect of the text-change handler `handleChange`:
`editedContent` is replaced wholesale.  (Its autocomplete and cursor
bookkeeping is modelled by the pure functions below.) -/
def handleChange (value : Str) (s : EditorState) : EditorState :=
  { s with editedContent := value }

/-- `handleOpenFile`.  Clears the error, then — when a file is open and
dirty — asks for confirmation (`confirmSave` is the user's answer) and, on
yes, runs the save (whose own failure is caught internally, so the flow
continues either way).  Then the new file is read: `readResult` is its
text, or `none` when the read throws; on success all three session fields
are replaced, on failure only the error is set. -/
def handleOpenFile (confirmSave : Bool) (writeOk : Bool) (readResult : Option Str)
    (newHandle : Nat) (s : EditorState) : EditorState :=
  let s1 : EditorState := { s with error := none }
  let s2 : EditorState :=
    if hasChanges s1 then
      if confirmSave then (handleSaveFile writeOk s1).1 else s1
    else s1
  match readResult with
  | some text =>
    { s2 with currentFile := some newHandle, fileContent := text, editedContent := text }
  | none => { s2 with error := some readErrorMsg }

/-- Outcome of the directory-pick-and-enumerate sequence in
`handleOpenDirectory`: the capability may be missing, the user may cancel
the picker (an `AbortError`), enumeration may throw, or a tree is built. -/
inductive DirPickOutcome where
  | unsupported
  | cancelled
  | enumFailure
  | success (tree : List FileEntry)

/-- `handleOpenDirectory`.  Clears the error, then feature-detects,
picks, and enumerates.  The catch block ignores `AbortError` (user
cancellation) and surfaces every other `Error`'s message. -/
def handleOpenDirectory (o : DirPickOutcome) (s : EditorState) : EditorState :=
  let s1 : EditorState := { s with error := none }
  match o with
  | .success t => { s1 with fileTree := t }
  | .cancelled => s1
  | .unsupported => { s1 with error := some unsupportedMsg }
  | .enumFailure => { s1 with error := some enumErrorMsg }

/-- The fixed autocomplete dictionary `suggestions` from
`src/app/page.tsx`. -/
def suggestions : List Str :=
  ["function", "const", "let", "var", "return", "console.log", "useEffect",
   "useState", "import", "export", "if", "else", "for", "while", "async",
   "await"].map String.data

/-- The before-cursor word fragment of `findCurrentWord`: the last element
of `textBeforeCursor.split(/\s/)`, i.e. the trailing maximal run of
non-whitespace characters of the text before the cursor. -/
def beforeFragment (value : Str) (cursorPos : Nat) : Str :=
  ((value.take cursorPos).reverse.takeWhile (fun c => !c.isWhitespace)).reverse

/-- The after-cursor word fragment of `findCurrentWord`: the match of
`/^\S*/` on the text after the cursor, i.e. its leading maximal run of
non-whitespace characters. -/
def afterFragment (value : Str) (cursorPos : Nat) : Str :=
  (value.drop cursorPos).takeWhile (fun c => !c.isWhitespace)

/-- The `currentWord` record state set by `findCurrentWord`. -/
structure CurrentWord where
  word : Str
  startPos : Nat
  endPos : Nat

/-- The word computation of `findCurrentWord`: concatenate the two
fragments; the span starts `beforeFragment.length` before the cursor and
ends `afterFragment.length` after it. -/
def findCurrentWord (value : Str) (cursorPos : Nat) : CurrentWord :=
  { word := beforeFragment value cursorPos ++ afterFragment value cursorPos
  , startPos := cursorPos - (beforeFragment value cursorPos).length
  , endPos := cursorPos + (afterFragment value cursorPos).length }

/-- The suggestion-filter part of `findCurrentWord`: when the before-cursor
fragment is non-empty and the helper is not in the just-completed
suppression state, keep the dictionary entries that start with the fragment
and are not identical to it; otherwise the list is empty. -/
def computeSuggestions (dict : List Str) (value : Str) (cursorPos : Nat)
    (justCompleted : Bool) : List Str :=
  let currentWordStart := beforeFragment value cursorPos
  if currentWordStart.length > 0 && !justCompleted then
    dict.filter (fun s => currentWordStart.isPrefixOf s && s != currentWordStart)
  else []

/-- `insertSuggestion`: splice the suggestion over the current word's span
`[startPos, endPos)` of the edited buffer; the new cursor offset is
`textBeforeCursor.length + suggestion.length`.  Returns the new buffer and
the new cursor position. -/
def insertSuggestion (editedContent : Str) (cw : CurrentWord) (sug : Str) : Str × Nat :=
  let textBeforeCursor := editedContent.take cw.startPos
  let textAfterCursor := editedContent.drop cw.endPos
  (textBeforeCursor ++ sug ++ textAfterCursor,
   textBeforeCursor.length + sug.length)

/-- JavaScript `value.split('\n')` on a character-list string: the list of
newline-delimited segments (the empty string yields one empty segment). -/
def splitOnNewline : Str → List Str
  | [] => [[]]
  | c :: rest =>
    match splitOnNewline rest with
    | [] => [[]]
    | s :: ss => if c = '\n' then [] :: s :: ss else (c :: s) :: ss

/-- The gutter recomputation of `updateLineNumbers`: the displayed sequence
of line numbers `1..N` with `N = max 1 (editedContent.split('\n').length)`. -/
def updateLineNumbers (editedContent : Str) : List Nat :=
  let lineCount := max 1 (splitOnNewline editedContent).length
  (List.range lineCount).map (· + 1)

/-! ## Sample states used by concrete witnesses -/

/-- A session with an open file and unsaved changes. -/
def sampleDirty : EditorState :=
  { fileTree := [], currentFile := some 0, fileContent := "a".data
  , editedContent := "b".data, error := none }

/-- A session with no open file. -/
def sampleClosed : EditorState :=
  { fileTree := [], currentFile := none, fileContent := "a".data
  , editedContent := "b".data, error := none }

/-! ## File Session claims -/

/-- C1: immediately after a successful Open or a successful Save,
`fileContent` equals `editedContent`; `hasChanges` is exactly "a file is
open and `fileContent ≠ editedContent`"; an Edit to a value different from
`fileContent` while a file is open makes `hasChanges` true; and a
successful Save restores equality regardless of content (the second
conjunct holds for every open state). -/
theorem dirty_state_law :
    (∀ (s : EditorState) (cs wk : Bool) (t : Str) (h : Nat),
      (handleOpenFile cs wk (some t) h s).fileContent
        = (handleOpenFile cs wk (some t) h s).editedContent)
  ∧ (∀ s : EditorState, s.currentFile.isSome = true →
      ((handleSaveFile true s).1).fileContent = ((handleSaveFile true s).1).editedContent)
  ∧ (∀ s : EditorState,
      hasChanges s = true ↔ (s.currentFile.isSome = true ∧ s.fileContent ≠ s.editedContent))
  ∧ (∀ (s : EditorState) (v : Str), s.currentFile.isSome = true →
      v ≠ s.fileContent → hasChanges (handleChange v s) = true) := by
  refine ⟨?_, ?_, ?_, ?_⟩
  · intro s cs wk t h
    simp only [handleOpenFile]
  · intro s hs
    rcases Option.isSome_iff_exists.mp hs with ⟨h, hh⟩
    simp [handleSaveFile, hh]
  · intro s
    simp [hasChanges, bne_iff_ne]
  · intro s v hs hv
    simp [handleChange, hasChanges, bne_iff_ne, hs, Ne.symm hv]

/-- Witness for C1 at concrete states. -/
theorem dirty_state_law_witness :
    (handleOpenFile true true (some "t".data) 1 sampleDirty).fileContent
      = (handleOpenFile true true (some "t".data) 1 sampleDirty).editedContent
  ∧ ((handleSaveFile true sampleDirty).1).fileContent
      = ((handleSaveFile true sampleDirty).1).editedContent
  ∧ (hasChanges sampleDirty = true
      ↔ (sampleDirty.currentFile.isSome = true
          ∧ sampleDirty.fileContent ≠ sampleDirty.editedContent))
  ∧ hasChanges (handleChange "x".data sampleDirty) = true :=
  ⟨dirty_state_law.1 sampleDirty true true "t".data 1,
   dirty_state_law.2.1 sampleDirty (by decide),
   dirty_state_law.2.2.1 sampleDirty,
   dirty_state_law.2.2.2 sampleDirty "x".data (by decide) (by decide)⟩

/-- C2: a failed Save leaves `editedContent`, `fileContent` and
`currentFile` unchanged, records no complete write, and preserves
dirtiness. -/
theorem save_failure_atomic (s : EditorState) :
    ((handleSaveFile false s).1).editedContent = s.editedContent
  ∧ ((handleSaveFile false s).1).fileContent = s.fileContent
  ∧ ((handleSaveFile false s).1).currentFile = s.currentFile
  ∧ (handleSaveFile false s).2 = none
  ∧ (hasChanges s = true → hasChanges (handleSaveFile false s).1 = true) := by
  rcases hc : s.currentFile with _ | h <;>
    simp [handleSaveFile, hasChanges, hc]

/-- Witness for C2 at a dirty state. -/
theorem save_failure_atomic_witness :
    ((handleSaveFile false sampleDirty).1).editedContent = sampleDirty.editedContent
  ∧ ((handleSaveFile false sampleDirty).1).fileContent = sampleDirty.fileContent
  ∧ ((handleSaveFile false sampleDirty).1).currentFile = sampleDirty.currentFile
  ∧ (handleSaveFile false sampleDirty).2 = none
  ∧ hasChanges (handleSaveFile false sampleDirty).1 = true :=
  ⟨(save_failure_atomic sampleDirty).1,
   (save_failure_atomic sampleDirty).2.1,
   (save_failure_atomic sampleDirty).2.2.1,
   (save_failure_atomic sampleDirty).2.2.2.1,
   (save_failure_atomic sampleDirty).2.2.2.2 (by decide)⟩

/-- C6: Save is a no-op when no file is open (no write is recorded and the
state is returned unchanged); when a file is open and the write succeeds,
the entire `editedContent` is written to the file reference and
`fileContent` is set to it. -/
theorem save_noop_or_full_write :
    (∀ (wk : Bool) (s : EditorState), s.currentFile = none →
      handleSaveFile wk s = (s, none))
  ∧ (∀ (s : EditorState) (h : Nat), s.currentFile = some h →
      (handleSaveFile true s).2 = some s.editedContent
      ∧ ((handleSaveFile true s).1).fileContent = s.editedContent
      ∧ ((handleSaveFile true s).1).editedContent = s.editedContent
      ∧ ((handleSaveFile true s).1).currentFile = s.currentFile) := by
  constructor
  · intro wk s hnone
    simp [handleSaveFile, hnone]
  · intro s h hsome
    simp [handleSaveFile, hsome]

/-- Witness for C6 at concrete closed and open states. -/
theorem save_noop_or_full_write_witness :
    handleSaveFile true sampleClosed = (sampleClosed, none)
  ∧ ((handleSaveFile true sampleDirty).2 = some sampleDirty.editedContent
      ∧ ((handleSaveFile true sampleDirty).1).fileContent = sampleDirty.editedContent
      ∧ ((handleSaveFile true sampleDirty).1).editedContent = sampleDirty.editedContent
      ∧ ((handleSaveFile true sampleDirty).1).currentFile = sampleDirty.currentFile) :=
  ⟨save_noop_or_full_write.1 true sampleClosed rfl,
   save_noop_or_full_write.2 sampleDirty 0 rfl⟩

/-- C7 as stated is false: when the previous session is dirty, the user
confirms the save, the save succeeds, and then the read of the new file
fails, `fileContent` has been updated by the save — the previous session's
state is not left untouched. -/
theorem open_failure_untouched_cex :
    (handleOpenFile true true none 1 sampleDirty).fileContent ≠ sampleDirty.fileContent := by
  decide

/-- C7 amended: a failing Open leaves `currentFile` and `editedContent`
untouched, reports an error and does not open the new file; `fileContent`
is untouched unless the previous session was dirty and a user-confirmed
save succeeded before the failing read, in which case it equals
`editedContent`. -/
theorem open_failure_effects (cs wk : Bool) (h : Nat) (s : EditorState) :
    (handleOpenFile cs wk none h s).currentFile = s.currentFile
  ∧ (handleOpenFile cs wk none h s).editedContent = s.editedContent
  ∧ (handleOpenFile cs wk none h s).error = some readErrorMsg
  ∧ ((hasChanges s = true ∧ cs = true ∧ wk = true) →
      (handleOpenFile cs wk none h s).fileContent = s.editedContent)
  ∧ (¬(hasChanges s = true ∧ cs = true ∧ wk = true) →
      (handleOpenFile cs wk none h s).fileContent = s.fileContent) := by
  have hch : hasChanges { s with error := none } = hasChanges s := by
    simp [hasChanges]
  rcases hd : hasChanges s <;> rcases cs <;> rcases wk <;>
    rcases hc : s.currentFile with _ | h' <;>
      simp_all [handleOpenFile, handleSaveFile, hasChanges]

/-- Witness for C7's amended theorem: both implications discharged, each
at a concrete input. -/
theorem open_failure_effects_witness :
    (handleOpenFile true true none 1 sampleDirty).fileContent = sampleDirty.editedContent
  ∧ (handleOpenFile false true none 1 sampleDirty).fileContent = sampleDirty.fileContent :=
  ⟨(open_failure_effects true true 1 sampleDirty).2.2.2.1 (by decide),
   (open_failure_effects false true 1 sampleDirty).2.2.2.2 (by decide)⟩

/-- C8: user cancellation of the directory pick surfaces no error and
leaves the displayed tree unchanged; the capability-missing and
enumeration-failure outcomes surface an error message, also leaving the
tree unchanged. -/
theorem directory_pick_error_policy (s : EditorState) :
    ((handleOpenDirectory .cancelled s).error = none
      ∧ (handleOpenDirectory .cancelled s).fileTree = s.fileTree)
  ∧ ((handleOpenDirectory .unsupported s).error = some unsupportedMsg
      ∧ (handleOpenDirectory .unsupported s).fileTree = s.fileTree)
  ∧ ((handleOpenDirectory .enumFailure s).error = some enumErrorMsg
      ∧ (handleOpenDirectory .enumFailure s).fileTree = s.fileTree) := by
  refine ⟨⟨?_, ?_⟩, ⟨?_, ?_⟩, ⟨?_, ?_⟩⟩ <;> simp [handleOpenDirectory]

/-! ## Autocomplete and gutter claims -/

/-- Decomposition of a list at its trailing run of `p`-characters: the list
is the reversed drop-while of its reverse followed by the reversed
take-while of its reverse, and the trailing run is no longer than the
list. -/
theorem rev_takeWhile_decomp (p : Char → Bool) (S : Str) :
    S = (S.reverse.dropWhile p).reverse ++ (S.reverse.takeWhile p).reverse := by
  have h1 := List.takeWhile_append_dropWhile p S.reverse
  have h2 := congrArg List.reverse h1
  rw [List.reverse_append, List.reverse_reverse] at h2
  exact h2.symm

/-- Taking the middle block of a four-part concatenation. -/
theorem take_drop_middle (A F G B : Str) :
    ((A ++ (F ++ (G ++ B))).drop A.length).take (F.length + G.length) = F ++ G := by
  rw [List.drop_left, ← List.length_append, ← List.append_assoc]
  exact List.take_left (F ++ G) B

/-- C4 as stated is false at its own example: for the dictionary
`["function","for","foreach"]` and buffer `"fo"` with the cursor at
offset 2, the filter does not produce `["for","foreach","function"]`
("function" does not start with "fo"). -/
theorem autocomplete_example_cex :
    computeSuggestions (["function", "for", "foreach"].map String.data) "fo".data 2 false
      ≠ ["for", "foreach", "function"].map String.data := by
  decide

/-- C4 amended: outside the suppression state the filter keeps exactly the
dictionary entries that start (case-sensitively) with the non-empty
before-cursor fragment and are not identical to it, preserving dictionary
order (the output is a sublist of the dictionary); for dictionary
`["function","for","foreach"]` and buffer `"fo"` with cursor at offset 2
the result is `["for","foreach"]`. -/
theorem autocomplete_filter (dict : List Str) (value : Str) (cursorPos : Nat) :
    (computeSuggestions dict value cursorPos false).Sublist dict
  ∧ (∀ s : Str, s ∈ computeSuggestions dict value cursorPos false ↔
      (beforeFragment value cursorPos ≠ []
        ∧ s ∈ dict
        ∧ (beforeFragment value cursorPos).isPrefixOf s = true
        ∧ s ≠ beforeFragment value cursorPos))
  ∧ computeSuggestions (["function", "for", "foreach"].map String.data) "fo".data 2 false
      = ["for", "foreach"].map String.data := by
  refine ⟨?_, ?_, by decide⟩
  · simp only [computeSuggestions]
    split
    · exact List.filter_sublist dict
    · exact List.nil_sublist dict
  · intro s
    simp only [computeSuggestions]
    split
    case isTrue hcond =>
      have hfrag : beforeFragment value cursorPos ≠ [] := by
        intro he
        rw [he] at hcond
        simp at hcond
      simp only [List.mem_filter, Bool.and_eq_true, bne_iff_ne, hfrag,
        ne_eq, not_false_eq_true, true_and]
    case isFalse hcond =>
      have hfrag : beforeFragment value cursorPos = [] := by
        by_contra hne
        exact hcond (by simp [List.length_pos.mpr hne])
      simp [hfrag]

/-- C5: when the current-word span is the decomposition point
`[pre.length, pre.length + mid.length)` of the buffer `pre ++ mid ++ post`,
accepting a suggestion yields `pre ++ suggestion ++ post` with the cursor
at `startPos + suggestion.length`; in particular accepting "foreach" on the
word computed at offset 2 of buffer "fo bar" yields ("foreach bar", 7). -/
theorem insertSuggestion_splice (pre mid post sug : Str) (cw : CurrentWord)
    (hs : cw.startPos = pre.length) (he : cw.endPos = pre.length + mid.length) :
    (insertSuggestion (pre ++ mid ++ post) cw sug).1 = pre ++ sug ++ post
  ∧ (insertSuggestion (pre ++ mid ++ post) cw sug).2 = cw.startPos + sug.length
  ∧ insertSuggestion "fo bar".data (findCurrentWord "fo bar".data 2) "foreach".data
      = ("foreach bar".data, 7) := by
  have h1 : (pre ++ mid ++ post).take pre.length = pre := by
    rw [List.append_assoc]
    exact List.take_left pre (mid ++ post)
  have h2 : (pre ++ mid ++ post).drop (pre.length + mid.length) = post := by
    rw [← List.length_append]
    exact List.drop_left (pre ++ mid) post
  refine ⟨?_, ?_, by decide⟩
  · simp [insertSuggestion, hs, he, h1, h2]
  · simp [insertSuggestion, hs, h1]

/-- Witness for C5: the decomposition `[] ++ "fo" ++ " bar"` with span
`[0, 2)`. -/
theorem insertSuggestion_splice_witness :
    (insertSuggestion ([] ++ "fo".data ++ " bar".data) ⟨"fo".data, 0, 2⟩ "foreach".data).1
      = [] ++ "foreach".data ++ " bar".data
  ∧ (insertSuggestion ([] ++ "fo".data ++ " bar".data) ⟨"fo".data, 0, 2⟩ "foreach".data).2
      = (CurrentWord.mk "fo".data 0 2).startPos + "foreach".data.length
  ∧ insertSuggestion "fo bar".data (findCurrentWord "fo bar".data 2) "foreach".data
      = ("foreach bar".data, 7) :=
  insertSuggestion_splice [] "fo".data " bar".data "foreach".data
    ⟨"fo".data, 0, 2⟩ (by decide) (by decide)

/-- The number of newline-delimited segments is the newline count plus
one. -/
theorem splitOnNewline_length (l : Str) :
    (splitOnNewline l).length = l.count '\n' + 1 := by
  induction l with
  | nil => rfl
  | cons c rest ih =>
    rcases hsp : splitOnNewline rest with _ | ⟨s, ss⟩
    · rw [hsp] at ih; simp at ih
    · rw [hsp] at ih
      simp only [List.length_cons] at ih
      by_cases hc : c = '\n' <;>
        simp [splitOnNewline, hsp, hc, List.count_cons] <;> omega

/-- C9: the gutter recomputes the sequential numbers `1..N` where `N` is
the number of newline-delimited segments of the buffer (newline count plus
one), always at least 1; the empty buffer yields exactly `[1]`. -/
theorem gutter_line_numbers (content : Str) :
    updateLineNumbers content
      = (List.range (content.count '\n' + 1)).map (fun i => i + 1)
  ∧ (splitOnNewline content).length = content.count '\n' + 1
  ∧ 1 ≤ (updateLineNumbers content).length
  ∧ updateLineNumbers [] = [1] := by
  have hs := splitOnNewline_length content
  refine ⟨?_, hs, ?_, by decide⟩
  · rw [updateLineNumbers, hs, Nat.max_eq_right (Nat.succ_le_succ (Nat.zero_le _))]
  · simp [updateLineNumbers]

/-- C10: for every buffer and cursor offset within it, the current word is
well-formed: the span starts the before-fragment's length before the
cursor, ends the after-fragment's length after it, satisfies
`startPos ≤ cursorPos ≤ endPos ≤ length`, its substring of the buffer is
the recorded word, and the splice's cursor lands at
`startPos + suggestion.length`. -/
theorem findCurrentWord_wf (value : Str) (cursorPos : Nat)
    (hcp : cursorPos ≤ value.length) :
    (findCurrentWord value cursorPos).startPos
        = cursorPos - (beforeFragment value cursorPos).length
  ∧ (findCurrentWord value cursorPos).endPos
        = cursorPos + (afterFragment value cursorPos).length
  ∧ (findCurrentWord value cursorPos).startPos ≤ cursorPos
  ∧ cursorPos ≤ (findCurrentWord value cursorPos).endPos
  ∧ (findCurrentWord value cursorPos).endPos ≤ value.length
  ∧ (value.drop (findCurrentWord value cursorPos).startPos).take
        ((findCurrentWord value cursorPos).endPos
          - (findCurrentWord value cursorPos).startPos)
      = (findCurrentWord value cursorPos).word
  ∧ ∀ sug : Str, (insertSuggestion value (findCurrentWord value cursorPos) sug).2
      = (findCurrentWord value cursorPos).startPos + sug.length := by
  obtain ⟨F, hF⟩ : ∃ F, beforeFragment value cursorPos = F := ⟨_, rfl⟩
  obtain ⟨G, hG⟩ : ∃ G, afterFragment value cursorPos = G := ⟨_, rfl⟩
  obtain ⟨A, hS⟩ : ∃ A : Str, value.take cursorPos = A ++ F :=
    ⟨((value.take cursorPos).reverse.dropWhile (fun c => !c.isWhitespace)).reverse,
     by rw [← hF]; unfold beforeFragment; exact rev_takeWhile_decomp _ _⟩
  obtain ⟨B, hT⟩ : ∃ B : Str, value.drop cursorPos = G ++ B :=
    ⟨(value.drop cursorPos).dropWhile (fun c => !c.isWhitespace),
     by rw [← hG]; unfold afterFragment; exact (List.takeWhile_append_dropWhile _ _).symm⟩
  have hlenS : (value.take cursorPos).length = cursorPos := by
    rw [List.length_take]; exact Nat.min_eq_left hcp
  have hlen : A.length + F.length = cursorPos := by
    rw [← List.length_append, ← hS]; exact hlenS
  have hv : value = A ++ (F ++ (G ++ B)) := by
    conv_lhs => rw [← List.take_append_drop cursorPos value, hS, hT]
    rw [List.append_assoc]
  have hvlen : value.length = A.length + (F.length + (G.length + B.length)) := by
    conv_lhs => rw [hv]
    simp [List.length_append]
  simp only [findCurrentWord, insertSuggestion, hF, hG]
  refine ⟨by trivial, by trivial, by omega, by omega, by omega, ?_, ?_⟩
  · have hstart : cursorPos - F.length = A.length := by omega
    have hspan : cursorPos + G.length - A.length = F.length + G.length := by omega
    rw [hstart, hspan, hv]
    exact take_drop_middle A F G B
  · intro sug
    have htk : (value.take (cursorPos - F.length)).length = cursorPos - F.length := by
      rw [List.length_take]
      exact Nat.min_eq_left (by omega)
    simp [htk]

/-- Witness for C10 at buffer "fo bar" with the cursor at offset 2. -/
theorem findCurrentWord_wf_witness :
    (findCurrentWord "fo bar".data 2).startPos ≤ 2
  ∧ (findCurrentWord "fo bar".data 2).endPos ≤ "fo bar".data.length
  ∧ ("fo bar".data.drop (findCurrentWord "fo bar".data 2).startPos).take
        ((findCurrentWord "fo bar".data 2).endPos
          - (findCurrentWord "fo bar".data 2).startPos)
      = (findCurrentWord "fo bar".data 2).word
  ∧ (insertSuggestion "fo bar".data (findCurrentWord "fo bar".data 2) "foreach".data).2
      = (findCurrentWord "fo bar".data 2).startPos + "foreach".data.length :=
  ⟨(findCurrentWord_wf "fo bar".data 2 (by decide)).2.2.1,
   (findCurrentWord_wf "fo bar".data 2 (by decide)).2.2.2.2.1,
   (findCurrentWord_wf "fo bar".data 2 (by decide)).2.2.2.2.2.1,
   (findCurrentWord_wf "fo bar".data 2 (by decide)).2.2.2.2.2.2 "foreach".data⟩

/-! ## Directory Snapshot Builder claim -/

/-- `lexCmp` answers `eq` exactly on equal lists. -/
theorem lexCmp_eq_iff : ∀ a b : Str, lexCmp a b = .eq ↔ a = b
  | [], [] => by simp [lexCmp]
  | [], _ :: _ => by simp [lexCmp]
  | _ :: _, [] => by simp [lexCmp]
  | a :: as, b :: bs => by
    rw [lexCmp]
    by_cases h1 : a < b
    · simp [h1, ne_of_lt h1]
    · by_cases h2 : b < a
      · simp [h1, h2, (ne_of_lt h2).symm]
      · have hab : a = b := le_antisymm (not_lt.mp h2) (not_lt.mp h1)
        simp [h1, h2, hab, lexCmp_eq_iff as bs]

/-- Swapping the arguments of `lexCmp` swaps the ordering. -/
theorem lexCmp_swap : ∀ a b : Str, lexCmp b a = (lexCmp a b).swap
  | [], [] => rfl
  | [], _ :: _ => rfl
  | _ :: _, [] => rfl
  | a :: as, b :: bs => by
    rw [lexCmp, lexCmp]
    by_cases h1 : a < b
    · simp [h1, lt_asymm h1, Ordering.swap]
    · by_cases h2 : b < a
      · simp [h1, h2, Ordering.swap]
      · simp [h1, h2, lexCmp_swap as bs]

/-- Strict transitivity of `lexCmp`. -/
theorem lexCmp_lt_trans : ∀ a b c : Str, lexCmp a b = .lt → lexCmp b c = .lt → lexCmp a c = .lt := by
  intro a
  induction a with
  | nil =>
    intro b c hab hbc
    cases c with
    | cons c cs => rfl
    | nil =>
      cases b with
      | nil => simp [lexCmp] at hab
      | cons b bs => simp [lexCmp] at hbc
  | cons a as ih =>
    intro b c hab hbc
    cases b with
    | nil => simp [lexCmp] at hab
    | cons b bs =>
    cases c with
    | nil => simp [lexCmp] at hbc
    | cons c cs =>
    rw [lexCmp] at hab hbc ⊢
    rcases lt_trichotomy a b with h1 | h1 | h1
    · rcases lt_trichotomy b c with h2 | h2 | h2
      · simp [lt_trans h1 h2]
      · subst h2; simp [h1]
      · rw [if_neg (lt_asymm h2), if_pos h2] at hbc; simp at hbc
    · subst h1
      rcases lt_trichotomy a c with h2 | h2 | h2
      · simp [h2]
      · subst h2
        simp only [lt_irrefl, if_false] at hab hbc ⊢
        exact ih bs cs hab hbc
      · rw [if_neg (lt_asymm h2), if_pos h2] at hbc; simp at hbc
    · rw [if_neg (lt_asymm h1), if_pos h1] at hab; simp at hab

/-- Anti-symmetry of the comparator model: swapping arguments negates the
result. -/
theorem localeCompare_swap (a b : Str) : localeCompare b a = -localeCompare a b := by
  have h2 := lexCmp_swap (a.map Char.toLower) (b.map Char.toLower)
  have h3 := lexCmp_swap b a
  unfold localeCompare
  rcases h1 : lexCmp (a.map Char.toLower) (b.map Char.toLower) with _ | _ | _ <;>
    rw [h1] at h2 <;> rw [h2]
  · rfl
  · rcases h4 : lexCmp b a with _ | _ | _ <;> rw [h4] at h3 <;> rw [h3] <;> rfl
  · rfl

/-- Characterization of a non-positive `localeCompare` result. -/
theorem localeCompare_nonpos_iff (a b : Str) : localeCompare a b ≤ 0 ↔
    (lexCmp (a.map Char.toLower) (b.map Char.toLower) = .lt
      ∨ (lexCmp (a.map Char.toLower) (b.map Char.toLower) = .eq ∧ lexCmp b a ≠ .gt)) := by
  unfold localeCompare
  rcases h1 : lexCmp (a.map Char.toLower) (b.map Char.toLower) with _ | _ | _ <;> simp [h1]
  · rcases h2 : lexCmp b a with _ | _ | _ <;> simp [h2]

/-- Transitivity of non-positive `localeCompare`. -/
theorem localeCompare_le_trans {a b c : Str} (hab : localeCompare a b ≤ 0)
    (hbc : localeCompare b c ≤ 0) : localeCompare a c ≤ 0 := by
  rw [localeCompare_nonpos_iff] at hab hbc ⊢
  rcases hab with h1 | ⟨h1, h1'⟩
  · rcases hbc with h2 | ⟨h2, h2'⟩
    · exact Or.inl (lexCmp_lt_trans _ _ _ h1 h2)
    · have hbceq := (lexCmp_eq_iff _ _).mp h2
      exact Or.inl (hbceq ▸ h1)
  · have habeq := (lexCmp_eq_iff _ _).mp h1
    rcases hbc with h2 | ⟨h2, h2'⟩
    · exact Or.inl (habeq ▸ h2)
    · refine Or.inr ⟨by rw [habeq]; exact h2, ?_⟩
      intro hga
      rcases hba : lexCmp b a with _ | _ | _
      · rcases hcb : lexCmp c b with _ | _ | _
        · rw [lexCmp_lt_trans c b a hcb hba] at hga; simp at hga
        · have hcbeq := (lexCmp_eq_iff c b).mp hcb
          rw [hcbeq, hba] at hga; simp at hga
        · exact h2' hcb
      · have hbaeq := (lexCmp_eq_iff b a).mp hba
        exact h2' (hbaeq ▸ hga)
      · exact h1' hba

/-- Transitivity of the two-key entry order. -/
theorem entryLeB_trans (a b c : FileEntry) (hab : entryLeB a b = true)
    (hbc : entryLeB b c = true) : entryLeB a c = true := by
  unfold entryLeB entryCmp at hab hbc ⊢
  cases ha : a.isDirectory <;> cases hb : b.isDirectory <;> cases hc : c.isDirectory <;>
    simp_all [decide_eq_true_iff] <;>
    exact localeCompare_le_trans hab hbc

/-- Totality of the two-key entry order. -/
theorem entryLeB_total (a b : FileEntry) : (entryLeB a b || entryLeB b a) = true := by
  unfold entryLeB entryCmp
  cases ha : a.isDirectory <;> cases hb : b.isDirectory <;>
    simp [decide_eq_true_iff] <;>
  · have hs := localeCompare_swap a.name b.name
    omega

/-- The two-key order means: directory before file, or same kind with
non-positive name comparison. -/
theorem entryLeB_iff (a b : FileEntry) : entryLeB a b = true ↔
    ((a.isDirectory = true ∧ b.isDirectory = false)
      ∨ (a.isDirectory = b.isDirectory ∧ localeCompare a.name b.name ≤ 0)) := by
  unfold entryLeB entryCmp
  cases ha : a.isDirectory <;> cases hb : b.isDirectory <;> simp [decide_eq_true_iff]

/-- `listSortedB` says: every member's subtree is sorted and the list is
pairwise ordered. -/
theorem listSortedB_iff : ∀ xs : List FileEntry,
    listSortedB xs = true
      ↔ ((∀ e ∈ xs, entrySortedB e = true)
          ∧ xs.Pairwise (fun a b => entryLeB a b = true))
  | [] => by simp [listSortedB]
  | e :: es => by
    rw [listSortedB]
    simp only [Bool.and_eq_true, List.all_eq_true, List.pairwise_cons,
      List.mem_cons, forall_eq_or_imp, listSortedB_iff es]
    tauto

mutual

/-- Every raw entry has positive size. -/
def rawSize : RawEntry → Nat
  | .file _ => 1
  | .dir _ cs => 1 + rawListSize cs

/-- Total size of a raw directory listing. -/
def rawListSize : List RawEntry → Nat
  | [] => 0
  | e :: rest => rawSize e + rawListSize rest

end

theorem rawSize_pos : ∀ e : RawEntry, 1 ≤ rawSize e
  | .file _ => le_refl 1
  | .dir _ cs => by rw [rawSize]; omega

/-- Every collected entry is either a file leaf or a directory whose
children are a full (strictly smaller) `getAllFiles` build. -/
theorem mem_collectEntries : ∀ (l : List RawEntry) (e : FileEntry), e ∈ collectEntries l →
    (∃ n, e = FileEntry.mk n false [])
    ∨ (∃ n cs, e = FileEntry.mk n true (getAllFiles cs) ∧ rawListSize cs < rawListSize l)
  | [], e, he => by simp [collectEntries] at he
  | .file n :: rest, e, he => by
    rw [collectEntries] at he
    rcases List.mem_cons.mp he with rfl | hmem
    · exact Or.inl ⟨n, rfl⟩
    · rcases mem_collectEntries rest e hmem with h | ⟨n', cs, heq, hlt⟩
      · exact Or.inl h
      · refine Or.inr ⟨n', cs, heq, ?_⟩
        rw [rawListSize]
        have := rawSize_pos (RawEntry.file n)
        omega
  | .dir n cs :: rest, e, he => by
    rw [collectEntries] at he
    rcases List.mem_cons.mp he with rfl | hmem
    · refine Or.inr ⟨n, cs, rfl, ?_⟩
      rw [rawListSize, rawSize]
      omega
    · rcases mem_collectEntries rest e hmem with h | ⟨n', cs', heq, hlt⟩
      · exact Or.inl h
      · refine Or.inr ⟨n', cs', heq, ?_⟩
        rw [rawListSize]
        have := rawSize_pos (RawEntry.dir n cs)
        omega

/-- Strong-induction core of the C3 proof. -/
theorem getAllFiles_sorted_aux : ∀ (N : Nat) (l : List RawEntry), rawListSize l ≤ N →
    listSortedB (getAllFiles l) = true := by
  intro N
  induction N using Nat.strong_induction_on with
  | _ N ih =>
    intro l hl
    rw [listSortedB_iff]
    constructor
    · intro e he
      have he' : e ∈ collectEntries l := List.mem_mergeSort.mp he
      rcases mem_collectEntries l e he' with ⟨n, rfl⟩ | ⟨n, cs, rfl, hsz⟩
      · rfl
      · have hcs : listSortedB (getAllFiles cs) = true :=
          ih (rawListSize cs) (lt_of_lt_of_le hsz hl) cs le_rfl
        rw [entrySortedB]
        exact hcs
    · exact List.sorted_mergeSort entryLeB_trans entryLeB_total (collectEntries l)

/-- C3: every directory snapshot built by `getAllFiles` is sorted at every
level of the tree under the two-key order, which places every directory
before every file of the same level and orders entries of the same kind by
ascending (non-positive `localeCompare`) name; in particular the top level
is pairwise so ordered. -/
theorem getAllFiles_sorted (l : List RawEntry) :
    listSortedB (getAllFiles l) = true
  ∧ (∀ a b : FileEntry, entryLeB a b = true ↔
      ((a.isDirectory = true ∧ b.isDirectory = false)
        ∨ (a.isDirectory = b.isDirectory ∧ localeCompare a.name b.name ≤ 0)))
  ∧ (getAllFiles l).Pairwise (fun a b =>
      (a.isDirectory = true ∧ b.isDirectory = false)
      ∨ (a.isDirectory = b.isDirectory ∧ localeCompare a.name b.name ≤ 0)) := by
  have h1 : listSortedB (getAllFiles l) = true :=
    getAllFiles_sorted_aux (rawListSize l) l le_rfl
  refine ⟨h1, entryLeB_iff, ?_⟩
  have h2 := ((listSortedB_iff (getAllFiles l)).mp h1).2
  exact h2.imp (fun hab => (entryLeB_iff _ _).mp hab)

end SimpleCodeEditor
